import Mathlib

/-!
Shallow embedding of `imaging/code/scratch/PlaceFields.py`.

Modelling conventions:
* numpy float arrays become `List ℚ` (exact rational arithmetic); real-valued
  geometry (square roots, angles) lives in `ℝ`.
* `np.log2` and `np.sqrt` inside purely structural computations are abstracted
  as a function parameter `lg`/`sq : ℚ → ℚ`: every property proved here holds
  for an arbitrary such function, so nothing depends on their numerics.
* numpy elementwise division that can hit a zero denominator is modelled with
  `Option ℚ`, `none` standing for the nan/inf sentinel a float division
  produces; guarded divisions (denominator already filtered positive) use
  plain rational division.
* Python `random.randint(a, b)` is modelled by the set of values it can
  return (`Finset.Icc a b`, both endpoints included), or `none` when the
  range is empty and the call raises `ValueError`.
-/

namespace PlaceFieldsPy

/-- `np.roll(l, k)`: circular shift moving each element `k` slots to the
right, wrapping around (source line 300). -/
def npRoll (l : List ℚ) (k : ℕ) : List ℚ :=
  l.drop (l.length - k % l.length) ++ l.take (l.length - k % l.length)

/-- Boolean-mask indexing `a[running]` used throughout the class: keep the
entries of `l` whose running flag is `true`. -/
def maskFilter (l : List ℚ) (running : List Bool) : List ℚ :=
  ((l.zip running).filter (fun p => p.2)).map Prod.fst

/-- Python `random.randint(a, b)`: the set of integers it can return,
`a ≤ N ≤ b` with BOTH endpoints included, or `none` when `a > b` and the
call raises `ValueError`. -/
def randint (a b : ℕ) : Option (Finset ℕ) :=
  if a ≤ b then some (Finset.Icc a b) else none

/-- The random shift drawn at source line 299:
`randint(300, self.data["neural"].shape[1])`. -/
def shuffle_offsets (n_samples : ℕ) : Option (Finset ℕ) :=
  randint 300 n_samples

/-- Modelled from the spec: membership test of a value in spatial bin `j` of
the external collaborator `spatial_bin` (CaImaging.Behavior) — bin `j` spans
`edges[j] ≤ v < edges[j+1]`, the last bin closed on the right. -/
def inBin (edges : List ℚ) (j : ℕ) (v : ℚ) : Bool :=
  decide (edges.getD j 0 ≤ v) &&
    (decide (v < edges.getD (j + 1) 0) ||
      (decide (j + 2 = edges.length) && decide (v = edges.getD (j + 1) 0)))

/-- Modelled from the spec: the external collaborator `spatial_bin`
(CaImaging.Behavior) in 1D mode with pre-computed `edges` — a weighted
histogram: bin `j` holds the sum of the weights of the samples falling in
bin `j`. -/
def spatial_bin (edges : List ℚ) (xs ws : List ℚ) : List ℚ :=
  (List.range (edges.length - 1)).map (fun j =>
    (((xs.zip ws).filter (fun p => inBin edges j p.1)).map Prod.snd).sum)

/-- `make_place_field` (source lines 281–328), linearized path, with the
random draw injected as the explicit argument `shift`: when `shuffle` is set
the FULL activity trace is rolled by `shift` first, and only then masked by
`running` and binned. -/
def make_place_field (x : List ℚ) (running : List Bool) (edges : List ℚ)
    (neural : List ℚ) (shuffle : Bool) (shift : ℕ) : List ℚ :=
  let neural_data := if shuffle then npRoll neural shift else neural
  spatial_bin edges (maskFilter x running) (maskFilter neural_data running)

/-- The set of place fields reachable by the `shuffle=True` branch: `none`
when `randint(300, n_samples)` raises (source lines 298–300). -/
def shuffled_place_fields (x : List ℚ) (running : List Bool) (edges : List ℚ)
    (neural : List ℚ) : Option (Finset (List ℚ)) :=
  (shuffle_offsets neural.length).map
    (fun s => s.image (fun k => make_place_field x running edges neural true k))

/-- `spatial_information` (source lines 350–390), with `np.log2` abstracted
as `lg`.  Mirrors the source: mask both arrays to visited bins
(`occupancy > 0`), form the per-bin `rate`, `mrate`, `prob` arrays, select
the `rate > 0` entries and sum `prob * (rate/mrate) * lg (rate/mrate)`. -/
def spatial_information (lg : ℚ → ℚ) (tuning_curve occupancy : List ℚ) : ℚ :=
  let tc := ((tuning_curve.zip occupancy).filter
      (fun p => decide (0 < p.2))).map Prod.fst
  let occ := occupancy.filter (fun o => decide (0 < o))
  let rate := tc.zipWith (fun a b => a / b) occ
  let mrate := tc.sum / occ.sum
  let prob := occ.map (fun o => o / occ.sum)
  (((prob.zip rate).filter (fun q => decide (0 < q.2))).map
      (fun q => q.1 * (q.2 / mrate) * lg (q.2 / mrate))).sum

/-- The spec's formulation of the estimator (§4.5 / claim C1): restrict to
visited bins, and sum, over the visited bins, `probability × (rate/mean_rate)
× log2(rate/mean_rate)` when `rate > 0` and exactly `0` when `rate = 0`. -/
def spatial_information_spec (lg : ℚ → ℚ) (tuning_curve occupancy : List ℚ) : ℚ :=
  let visited := (tuning_curve.zip occupancy).filter (fun p => decide (0 < p.2))
  let total_activity := (visited.map Prod.fst).sum
  let total_occupancy := (visited.map Prod.snd).sum
  let mean_rate := total_activity / total_occupancy
  (visited.map (fun p =>
      if 0 < p.1 / p.2 then
        (p.2 / total_occupancy) * ((p.1 / p.2) / mean_rate) * lg ((p.1 / p.2) / mean_rate)
      else 0)).sum

/-- `np.mean` of a 1-D array. -/
def np_mean (l : List ℚ) : ℚ := l.sum / (l.length : ℚ)

/-- `np.var` of a 1-D array (population variance, `ddof = 0`, the numpy
default used by `np.std`). -/
def np_var (l : List ℚ) : ℚ :=
  ((l.map (fun v => (v - np_mean l) ^ 2)).sum) / (l.length : ℚ)

/-- Default of the `n_shuffles` parameter of `assess_spatial_sig`
(source line 187). -/
def default_n_shuffles : ℕ := 500

/-- `assess_spatial_sig` (source lines 187–202), with `np.log2` abstracted as
`lg`, `np.sqrt` (inside `np.std`) as `sq`, and the per-iteration random
shifts injected as the list `shifts` (`shifts.length = n_shuffles`).  The
true spatial information is the one computed at construction from the
unshuffled place field. -/
def assess_spatial_sig (lg sq : ℚ → ℚ) (x : List ℚ) (running : List Bool)
    (edges : List ℚ) (occupancy : List ℚ) (neural : List ℚ)
    (shifts : List ℕ) : ℚ × ℚ :=
  let true_SI := spatial_information lg
    (make_place_field x running edges neural false 0) occupancy
  let shuffled_SIs := shifts.map (fun k =>
    spatial_information lg (make_place_field x running edges neural true k) occupancy)
  let p_value := ((shuffled_SIs.filter (fun s => decide (true_SI < s))).length : ℚ)
    / (shifts.length : ℚ)
  let SI_z := (true_SI - np_mean shuffled_SIs) / sq (np_var shuffled_SIs)
  (p_value, SI_z)

/-- numpy float division of one entry, `none` standing for the nan/inf
sentinel produced on a zero denominator (never an exception). -/
def npDiv (a b : ℚ) : Option ℚ :=
  if b = 0 then none else some (a / b)

/-- `pf = pf / self.data["occupancy_map"]` (source line 317): elementwise
division of the raw tuning curve by the occupancy map. -/
def normalize_pf (pf occ : List ℚ) : List (Option ℚ) :=
  pf.zipWith npDiv occ

/-- One step of numpy's float `argmax` comparison: does candidate `v` beat
the current best `b`?  A nan (`none`) beats every number, nothing beats a
nan, and among numbers only a STRICTLY larger one wins (ties keep the first
occurrence). -/
def npGT : Option ℚ → Option ℚ → Bool
  | none, some _ => true
  | none, none => false
  | some _, none => false
  | some a, some b => decide (b < a)

/-- Tail of numpy's `argmax` scan: `i` is the index of the next candidate,
`bi`/`bv` the index and value of the current best. -/
def argmaxAux : List (Option ℚ) → ℕ → ℕ → Option ℚ → ℕ
  | [], _, bi, _ => bi
  | v :: rest, i, bi, bv =>
    if npGT v bv then argmaxAux rest (i + 1) i v
    else argmaxAux rest (i + 1) bi bv

/-- `np.argmax` on a float array that may hold nan (`none`) entries. -/
def npArgmax : List (Option ℚ) → ℕ
  | [] => 0
  | v :: rest => argmaxAux rest 1 0 v

/-- `find_pf_centers` (source lines 182–185): `np.argmax` of every
occupancy-normalized tuning curve. -/
def find_pf_centers (pfs_normalized : List (List (Option ℚ))) : List ℕ :=
  pfs_normalized.map npArgmax

/-- `min` of a Python list (defined for nonempty lists; seeded with the head
so that on nonempty input it is the true minimum). -/
noncomputable def listMin (l : List ℝ) : ℝ := l.foldr min (l.headD 0)

/-- `max` of a Python list, as `listMin`. -/
noncomputable def listMax (l : List ℝ) : ℝ := l.foldr max (l.headD 0)

/-- `np.mean(x_extrema)` (source line 108): midpoint of the extrema. -/
noncomputable def extremaCenter (l : List ℝ) : ℝ := (listMin l + listMax l) / 2

/-- Modelled from the spec: the external collaborator `cart2pol`
(CaImaging.util), the standard polar transform — the angle of the point
`(x, y)`, i.e. `arctan2(y, x)`, realised as the complex argument. -/
noncomputable def cart2pol_angle (x y : ℝ) : ℝ :=
  Complex.arg (Complex.mk x y)

/-- `np.mod(θ, 2π)` (source line 115): wrap into `[0, 2π)`. -/
noncomputable def wrap2pi (θ : ℝ) : ℝ :=
  θ - 2 * Real.pi * ⌊θ / (2 * Real.pi)⌋

/-- The circular-track coordinate normalizer (source lines 101–116): recenter
at the bounding-box midpoint, take the polar angle, rotate by `+π/2`, wrap
into `[0, 2π)`; the stored `y` becomes `np.zeros_like(x)`. -/
noncomputable def normalize_circular (xs ys : List ℝ) : List ℝ × List ℝ :=
  let cx := extremaCenter xs
  let cy := extremaCenter ys
  let new_x := (xs.zip ys).map
    (fun p => wrap2pi (cart2pol_angle (p.1 - cx) (p.2 - cy) + Real.pi / 2))
  (new_x, List.replicate new_x.length 0)

/-- Modelled from the spec: the external collaborator `consecutive_dist`
(CaImaging.util) with `zero_pad=True` — Euclidean distance between
successive samples, a `0` prepended for the first sample. -/
noncomputable def consecutive_dist (pts : List (ℝ × ℝ)) : List ℝ :=
  0 :: (pts.zip pts.tail).map
    (fun q => Real.sqrt ((q.2.1 - q.1.1) ^ 2 + (q.2.2 - q.1.2) ^ 2))

/-- `np.diff(l, prepend=0)`: `l[i] - l[i-1]` with `l[-1]` taken as `0`. -/
def diff_prepend (l : List ℝ) : List ℝ :=
  l.zipWith (fun a b => a - b) (0 :: l)

/-- `self.data["velocity"]` (source lines 94–97): consecutive Euclidean
distance divided by the elapsed time per sample in seconds
(`np.diff(t/1000, prepend=0)`). -/
noncomputable def velocity_of (t x y : List ℝ) : List ℝ :=
  (consecutive_dist (x.zip y)).zipWith (fun a b => a / b)
    (diff_prepend (t.map (fun s => s / 1000)))

/-- `self.data["running"]` (source line 98): per-sample flag
`velocity > velocity_threshold`. -/
noncomputable def running_of (t x y : List ℝ) (thr : ℝ) : List Prop :=
  (velocity_of t x y).map (fun v => thr < v)

/-- Default of the `velocity_threshold` parameter (source line 28). -/
def default_velocity_threshold : ℝ := 10

/-- The spec's per-index formulation of the velocity (claim C8):
`velocity[i]` is the Euclidean distance between positions `i-1` and `i`
(the first sample's distance defined as `0`) divided by the elapsed time in
seconds for sample `i` (elapsed from a virtual time `0` for the first
sample). -/
noncomputable def velocity_spec (t x y : List ℝ) (i : ℕ) : ℝ :=
  (if i = 0 then 0
   else Real.sqrt ((x.getD i 0 - x.getD (i - 1) 0) ^ 2
     + (y.getD i 0 - y.getD (i - 1) 0) ^ 2))
  / ((t.getD i 0 - (if i = 0 then 0 else t.getD (i - 1) 0)) / 1000)

theorem zipWith_div_of_zero_left {l₁ l₂ : List ℚ} (h : ∀ a ∈ l₁, a = 0) :
    ∀ r ∈ List.zipWith (fun a b => a / b) l₁ l₂, r = 0 := by
  induction l₁ generalizing l₂ with
  | nil => intro r hr; simp at hr
  | cons a l ih =>
    cases l₂ with
    | nil => intro r hr; simp at hr
    | cons b l' =>
      intro r hr
      rw [List.zipWith_cons_cons, List.mem_cons] at hr
      rcases hr with rfl | hr
      · rw [h a (List.mem_cons_self a l)]; exact zero_div b
      · exact ih (fun x hx => h x (List.mem_cons_of_mem _ hx)) r hr

/-- C6: when the activity is zero at every visited bin — in particular when
no bin is visited at all — `spatial_information` returns `0` and never
divides by the zero mean rate: every per-bin rate is `0`, so the `rate > 0`
selection is empty and the sum is over nothing. -/
theorem spatial_information_zero_activity (lg : ℚ → ℚ) (tc occ : List ℚ)
    (h : ∀ p ∈ tc.zip occ, 0 < p.2 → p.1 = 0) :
    spatial_information lg tc occ = 0 := by
  unfold spatial_information
  apply List.sum_eq_zero
  intro y hy
  exfalso
  rw [List.mem_map] at hy
  obtain ⟨q, hq, -⟩ := hy
  rw [List.mem_filter] at hq
  obtain ⟨hqmem, hqpos⟩ := hq
  obtain ⟨a, b⟩ := q
  have hb : b ∈ List.zipWith (fun a b => a / b)
      (((tc.zip occ).filter (fun p => decide (0 < p.2))).map Prod.fst)
      (occ.filter (fun o => decide (0 < o))) := (List.of_mem_zip hqmem).2
  have hb0 : b = 0 := by
    refine zipWith_div_of_zero_left ?_ b hb
    intro a' ha'
    rw [List.mem_map] at ha'
    obtain ⟨p, hp, rfl⟩ := ha'
    rw [List.mem_filter, decide_eq_true_eq] at hp
    exact h p hp.1 hp.2
  rw [decide_eq_true_eq] at hqpos
  rw [hb0] at hqpos
  exact lt_irrefl 0 hqpos

/-- Witness for `spatial_information_zero_activity` at a concrete input. -/
theorem spatial_information_zero_activity_witness :
    spatial_information (fun q => q) [0, 0] [1, 0] = 0 :=
  spatial_information_zero_activity (fun q => q) [0, 0] [1, 0] (by decide)

/-- C5: `spatial_information` is invariant under scaling the tuning curve by
any positive constant `c`, for every log function: the occupancy side is
untouched, the `rate > 0` selection is unchanged, and `rate / mean_rate`
cancels the factor `c`. -/
theorem spatial_information_scale_invariant (lg : ℚ → ℚ) (c : ℚ) (hc : 0 < c)
    (tc occ : List ℚ) :
    spatial_information lg (tc.map (fun a => c * a)) occ
      = spatial_information lg tc occ := by
  have hc' : c ≠ 0 := ne_of_gt hc
  simp only [spatial_information]
  rw [List.zip_map_left, List.filter_map]
  have hpred : ((fun p : ℚ × ℚ => decide (0 < p.2)) ∘ Prod.map (fun a => c * a) id)
      = fun p : ℚ × ℚ => decide (0 < p.2) := by
    funext p; rfl
  rw [hpred]
  set F := (tc.zip occ).filter (fun p : ℚ × ℚ => decide (0 < p.2)) with hF
  set occf := occ.filter (fun o => decide (0 < o)) with hoccf
  have hmapfst : List.map Prod.fst (List.map (Prod.map (fun a => c * a) id) F)
      = List.map (fun a => c * a) (List.map Prod.fst F) := by
    rw [List.map_map, List.map_map]; rfl
  rw [hmapfst]
  have hsum : (List.map (fun a => c * a) (List.map Prod.fst F)).sum
      = c * (List.map Prod.fst F).sum := by
    have h := List.sum_map_mul_left (List.map Prod.fst F) (fun b => b) c
    simpa using h
  rw [hsum]
  have hrate : List.zipWith (fun a b => a / b)
        (List.map (fun a => c * a) (List.map Prod.fst F)) occf
      = List.map (fun r => c * r)
        (List.zipWith (fun a b => a / b) (List.map Prod.fst F) occf) := by
    rw [List.zipWith_map_left, List.map_zipWith]
    simp only [mul_div_assoc]
  rw [hrate]
  set rate := List.zipWith (fun a b => a / b) (List.map Prod.fst F) occf with hrdef
  set prob := List.map (fun o => o / occf.sum) occf with hpdef
  rw [List.zip_map_right, List.filter_map]
  have hpred2 : ∀ q ∈ prob.zip rate,
      ((fun q : ℚ × ℚ => decide (0 < q.2)) ∘ Prod.map id (fun r => c * r)) q
        = (fun q : ℚ × ℚ => decide (0 < q.2)) q := by
    intro q _
    simp only [Function.comp_apply, Prod.map_apply, id_eq]
    rw [decide_eq_decide]
    exact mul_pos_iff_of_pos_left hc
  rw [List.filter_congr hpred2]
  rw [List.map_map]
  apply congrArg List.sum
  apply List.map_congr_left
  intro q _
  simp only [Function.comp_apply, Prod.map_fst, Prod.map_snd, id_eq]
  rw [mul_div_assoc c (List.map Prod.fst F).sum occf.sum]
  rw [mul_div_mul_left q.2 _ hc']

/-- Witness for `spatial_information_scale_invariant` at a concrete input. -/
theorem spatial_information_scale_invariant_witness :
    spatial_information (fun q => q) ([2, 0, 3].map (fun a => 7 * a)) [1, 1, 2]
      = spatial_information (fun q => q) [2, 0, 3] [1, 1, 2] :=
  spatial_information_scale_invariant (fun q => q) 7 (by norm_num) [2, 0, 3] [1, 1, 2]

theorem npRoll_sum (l : List ℚ) (k : ℕ) : (npRoll l k).sum = l.sum := by
  unfold npRoll
  rw [List.sum_append, add_comm, ← List.sum_append, List.take_append_drop]

/-- C4: the normalized tuning curve is the raw curve divided elementwise by
the occupancy map, and any bin with occupancy `0` holds the nan/inf sentinel
(`none`) — never any numeric value, in particular never `0`; `npDiv` is
total, so no exception can arise. -/
theorem normalize_pf_zero_occupancy (pf occ : List ℚ) (i : ℕ)
    (hi : i < pf.length) (hl : pf.length = occ.length)
    (h0 : occ.getD i 0 = 0) :
    normalize_pf pf occ = pf.zipWith npDiv occ ∧
    (normalize_pf pf occ).getD i (some 0) = none ∧
    ∀ q : ℚ, (normalize_pf pf occ).getD i (some 0) ≠ some q := by
  have hio : i < occ.length := hl ▸ hi
  have hlen : i < (normalize_pf pf occ).length := by
    unfold normalize_pf
    rw [List.length_zipWith, hl]
    simpa using hio
  have hentry : (normalize_pf pf occ).getD i (some 0) = none := by
    rw [List.getD_eq_getElem _ _ hlen]
    unfold normalize_pf
    rw [List.getElem_zipWith]
    have : occ.getD i 0 = occ.get ⟨i, hio⟩ := List.getD_eq_getElem occ 0 hio
    rw [this] at h0
    simp only [List.get_eq_getElem] at h0
    simp [npDiv, h0]
  refine ⟨rfl, hentry, ?_⟩
  intro q
  rw [hentry]
  exact fun hcon => Option.noConfusion hcon

/-- Witness for `normalize_pf_zero_occupancy` at a concrete input. -/
theorem normalize_pf_zero_occupancy_witness :
    normalize_pf [3, 1] [2, 0] = [3, 1].zipWith npDiv [2, 0] ∧
    (normalize_pf [3, 1] [2, 0]).getD 1 (some 0) = none ∧
    ∀ q : ℚ, (normalize_pf [3, 1] [2, 0]).getD 1 (some 0) ≠ some q :=
  normalize_pf_zero_occupancy [3, 1] [2, 0] 1 (by decide) (by decide) (by decide)

/-- C10: the shuffle branch of the tuning-curve builder fails (Python
`randint(300, n)` raises on an empty range) exactly when the recording has
fewer than 300 samples; with at least 300 samples the draw always
succeeds. -/
theorem shuffled_place_fields_none_iff (x : List ℚ) (running : List Bool)
    (edges : List ℚ) (neural : List ℚ) :
    (shuffled_place_fields x running edges neural = none
      ↔ neural.length < 300) ∧
    ((shuffled_place_fields x running edges neural).isSome
      ↔ 300 ≤ neural.length) := by
  unfold shuffled_place_fields shuffle_offsets randint
  by_cases h : 300 ≤ neural.length
  · simp [h, Nat.not_lt.mpr h]
  · simp [h, Nat.lt_of_not_le h]

/-- C2 as stated is false: `random.randint(300, n)` includes BOTH endpoints,
so with `n = 301` samples the offset `301` can be drawn even though the
claimed half-open interval `[300, 301)` excludes it. -/
theorem shuffle_offsets_ne_Ico :
    shuffle_offsets 301 = some (Finset.Icc 300 301) ∧
    ¬(Finset.Icc 300 301 : Finset ℕ) ⊆ Finset.Ico 300 301 := by
  constructor
  · unfold shuffle_offsets randint
    rw [if_pos (by norm_num)]
  · intro hsub
    have h301 : (301 : ℕ) ∈ Finset.Icc 300 301 := Finset.mem_Icc.mpr (by omega)
    have := hsub h301
    rw [Finset.mem_Ico] at this
    omega

/-- C2 (amended): with `shuffle=True` the offset is drawn uniformly from the
CLOSED interval `[300, n_samples]`, both endpoints included; for every such
offset the FULL activity trace is circularly rolled (wrap-around, mass
preserving: the rolled trace has the same sum) before the running mask and
the spatial binning are applied — the shuffled place field equals the
unshuffled place field of the rolled trace. -/
theorem make_place_field_shuffle_amended (x : List ℚ) (running : List Bool)
    (edges : List ℚ) (act : List ℚ) (n k : ℕ) (_hn : act.length = n)
    (hk : k ∈ Finset.Icc 300 n) :
    shuffle_offsets n = some (Finset.Icc 300 n) ∧
    (npRoll act k).sum = act.sum ∧
    make_place_field x running edges act true k
      = make_place_field x running edges (npRoll act k) false 0 := by
  obtain ⟨h1, h2⟩ := Finset.mem_Icc.mp hk
  refine ⟨?_, npRoll_sum act k, rfl⟩
  unfold shuffle_offsets randint
  rw [if_pos (le_trans h1 h2)]

/-- Witness for `make_place_field_shuffle_amended` at a concrete input. -/
theorem make_place_field_shuffle_amended_witness :
    shuffle_offsets 300 = some (Finset.Icc 300 300) ∧
    (npRoll (List.replicate 300 (1 : ℚ)) 300).sum
      = (List.replicate 300 (1 : ℚ)).sum ∧
    make_place_field [] [] [] (List.replicate 300 (1 : ℚ)) true 300
      = make_place_field [] [] [] (npRoll (List.replicate 300 (1 : ℚ)) 300) false 0 :=
  make_place_field_shuffle_amended [] [] [] (List.replicate 300 (1 : ℚ)) 300 300
    (List.length_replicate 300 1) (Finset.mem_Icc.mpr (by omega))

theorem argmaxAux_none_best (l : List (Option ℚ)) (i bi : ℕ) :
    argmaxAux l i bi none = bi := by
  induction l generalizing i with
  | nil => rfl
  | cons v rest ih =>
    unfold argmaxAux
    have hv : npGT v none = false := by cases v <;> rfl
    rw [hv]
    simpa using ih (i + 1)

theorem argmaxAux_first_none (l : List (Option ℚ)) (j i bi : ℕ) (bv : ℚ)
    (hj : j < l.length) (hnone : l.getD j (some 0) = none)
    (hbefore : ∀ m, m < j → (l.getD m none).isSome) :
    argmaxAux l i bi (some bv) = i + j := by
  induction l generalizing j i bi bv with
  | nil => simp at hj
  | cons v rest ih =>
    cases j with
    | zero =>
      have hv : v = none := hnone
      unfold argmaxAux
      rw [hv]
      have : npGT none (some bv) = true := rfl
      rw [this]
      simpa using argmaxAux_none_best rest (i + 1) i
    | succ j =>
      have hv : v.isSome := hbefore 0 (Nat.succ_pos j)
      obtain ⟨a, rfl⟩ := Option.isSome_iff_exists.mp hv
      have hj' : j < rest.length := by simpa using Nat.lt_of_succ_lt_succ hj
      have hnone' : rest.getD j (some 0) = none := hnone
      have hbefore' : ∀ m, m < j → (rest.getD m none).isSome := by
        intro m hm
        exact hbefore (m + 1) (Nat.succ_lt_succ hm)
      unfold argmaxAux
      cases hgt : npGT (some a) (some bv) with
      | true =>
        rw [if_pos rfl]
        rw [ih j (i + 1) i a hj' hnone' hbefore']
        omega
      | false =>
        rw [if_neg Bool.false_ne_true]
        rw [ih j (i + 1) bi bv hj' hnone' hbefore']
        omega

theorem npArgmax_first_none (l : List (Option ℚ)) (j : ℕ)
    (hj : j < l.length) (hnone : l.getD j (some 0) = none)
    (hbefore : ∀ m, m < j → (l.getD m none).isSome) :
    npArgmax l = j := by
  cases l with
  | nil => simp at hj
  | cons v rest =>
    cases j with
    | zero =>
      have hv : v = none := hnone
      rw [hv]
      show argmaxAux rest 1 0 none = 0
      rw [argmaxAux_none_best]
    | succ j =>
      have hv : v.isSome := hbefore 0 (Nat.succ_pos j)
      obtain ⟨a, rfl⟩ := Option.isSome_iff_exists.mp hv
      have hj' : j < rest.length := by simpa using Nat.lt_of_succ_lt_succ hj
      have hbefore' : ∀ m, m < j → (rest.getD m none).isSome := by
        intro m hm
        exact hbefore (m + 1) (Nat.succ_lt_succ hm)
      show argmaxAux rest 1 0 (some a) = j + 1
      rw [argmaxAux_first_none rest j 1 0 a hj' hnone hbefore']
      omega

/-- C9: `find_pf_centers` is `np.argmax` of each occupancy-normalized curve;
when bin `j` is the first zero-occupancy bin, the normalized curve of every
neuron holds the nan sentinel there, numpy's `argmax` reports the first nan
position, and so every neuron's reported center is `j` — regardless of where
the maximal finite rate lies. -/
theorem find_pf_centers_zero_occupancy (raws : List (List ℚ)) (occ : List ℚ)
    (j : ℕ) (hj : j < occ.length)
    (hlen : ∀ raw ∈ raws, List.length raw = occ.length)
    (h0 : occ.getD j 0 = 0)
    (hfirst : ∀ m, m < j → occ.getD m 0 ≠ 0) :
    find_pf_centers (raws.map (fun raw => normalize_pf raw occ))
      = raws.map (fun _ => j) := by
  unfold find_pf_centers
  rw [List.map_map]
  apply List.map_congr_left
  intro raw hraw
  have hlr : List.length raw = occ.length := hlen raw hraw
  have hlnorm : (normalize_pf raw occ).length = occ.length := by
    unfold normalize_pf
    rw [List.length_zipWith, hlr]
    simp
  apply npArgmax_first_none
  · rw [hlnorm]; exact hj
  · have hjn : j < (normalize_pf raw occ).length := by rw [hlnorm]; exact hj
    rw [List.getD_eq_getElem _ _ hjn]
    unfold normalize_pf
    rw [List.getElem_zipWith]
    have hjo : j < occ.length := hj
    have : occ.getD j 0 = occ.get ⟨j, hjo⟩ := List.getD_eq_getElem occ 0 hjo
    rw [this] at h0
    simp only [List.get_eq_getElem] at h0
    simp [npDiv, h0]
  · intro m hm
    have hmn : m < (normalize_pf raw occ).length := by
      rw [hlnorm]; omega
    rw [List.getD_eq_getElem _ _ hmn]
    unfold normalize_pf
    rw [List.getElem_zipWith]
    have hmo : m < occ.length := by omega
    have hocc : occ.getD m 0 = occ.get ⟨m, hmo⟩ := List.getD_eq_getElem occ 0 hmo
    have hne : occ.get ⟨m, hmo⟩ ≠ 0 := by
      rw [← hocc]
      exact hfirst m hm
    simp only [List.get_eq_getElem] at hne
    simp [npDiv, hne]

/-- Witness for `find_pf_centers_zero_occupancy` at a concrete input: with
occupancy `[2, 0]`, both neurons' centers are bin `1` even though the
finite maximum of each curve sits in bin `0`. -/
theorem find_pf_centers_zero_occupancy_witness :
    find_pf_centers ([[1, 2], [3, 4]].map (fun raw => normalize_pf raw [2, 0]))
      = [[1, 2], [3, 4]].map (fun _ => 1) :=
  find_pf_centers_zero_occupancy [[1, 2], [3, 4]] [2, 0] 1 (by decide)
    (by decide) (by decide) (by decide)

/-- C3: the shuffle significance engine returns a one-sided p-value — the
number of null spatial informations STRICTLY exceeding the true one, divided
by `n_shuffles` — and the z-score (true − null mean) / null standard
deviation (`sq` applied to the population variance); the default shuffle
count is 500. -/
theorem assess_spatial_sig_formulas (lg sq : ℚ → ℚ) (x : List ℚ)
    (running : List Bool) (edges occupancy neural : List ℚ)
    (shifts : List ℕ) (n_shuffles : ℕ) (h : shifts.length = n_shuffles) :
    assess_spatial_sig lg sq x running edges occupancy neural shifts
      = ((((shifts.map (fun k => spatial_information lg
              (make_place_field x running edges neural true k) occupancy)).countP
            (fun s => decide (spatial_information lg
              (make_place_field x running edges neural false 0) occupancy < s)) : ℕ) : ℚ)
            / (n_shuffles : ℚ),
         (spatial_information lg (make_place_field x running edges neural false 0) occupancy
            - np_mean (shifts.map (fun k => spatial_information lg
                (make_place_field x running edges neural true k) occupancy)))
           / sq (np_var (shifts.map (fun k => spatial_information lg
                (make_place_field x running edges neural true k) occupancy)))) ∧
    default_n_shuffles = 500 := by
  subst h
  refine ⟨?_, rfl⟩
  simp only [assess_spatial_sig]
  rw [List.countP_eq_length_filter]

/-- Witness for `assess_spatial_sig_formulas` at a concrete input. -/
theorem assess_spatial_sig_formulas_witness :
    assess_spatial_sig (fun q => q) (fun q => q) [0, 1, 2] [true, true, true]
        [0, 1, 2] [2, 1] [1, 2, 3] [301]
      = (((([301].map (fun k => spatial_information (fun q => q)
              (make_place_field [0, 1, 2] [true, true, true] [0, 1, 2] [1, 2, 3] true k)
              [2, 1])).countP
            (fun s => decide (spatial_information (fun q => q)
              (make_place_field [0, 1, 2] [true, true, true] [0, 1, 2] [1, 2, 3] false 0)
              [2, 1] < s)) : ℕ) : ℚ) / ((1 : ℕ) : ℚ),
         (spatial_information (fun q => q)
            (make_place_field [0, 1, 2] [true, true, true] [0, 1, 2] [1, 2, 3] false 0) [2, 1]
            - np_mean ([301].map (fun k => spatial_information (fun q => q)
                (make_place_field [0, 1, 2] [true, true, true] [0, 1, 2] [1, 2, 3] true k)
                [2, 1])))
           / (fun q => q) (np_var ([301].map (fun k => spatial_information (fun q => q)
                (make_place_field [0, 1, 2] [true, true, true] [0, 1, 2] [1, 2, 3] true k)
                [2, 1])))) ∧
    default_n_shuffles = 500 :=
  assess_spatial_sig_formulas (fun q => q) (fun q => q) [0, 1, 2] [true, true, true]
    [0, 1, 2] [2, 1] [1, 2, 3] [301] 1 rfl

theorem sum_map_filter_eq {α : Type} (p : α → Bool) (f : α → ℚ) (l : List α) :
    ((l.filter p).map f).sum = (l.map (fun a => if p a then f a else 0)).sum := by
  induction l with
  | nil => rfl
  | cons a t ih =>
    by_cases hp : p a = true
    · simp only [List.filter_cons, if_pos hp, List.map_cons, List.sum_cons, hp, if_true, ih]
    · have hp' : p a = false := Bool.eq_false_iff.mpr hp
      simp only [List.filter_cons, hp', Bool.false_eq_true, if_false, List.map_cons,
        List.sum_cons, ih]
      simp

theorem filter_snd_zip (tc occ : List ℚ) (h : tc.length = occ.length) :
    ((tc.zip occ).filter (fun p => decide (0 < p.2))).map Prod.snd
      = occ.filter (fun o => decide (0 < o)) := by
  induction tc generalizing occ with
  | nil =>
    cases occ with
    | nil => rfl
    | cons b u => simp at h
  | cons a t ih =>
    cases occ with
    | nil => simp at h
    | cons b u =>
      have h' : t.length = u.length := by simpa using h
      rw [List.zip_cons_cons, List.filter_cons, List.filter_cons]
      by_cases hb : (0 : ℚ) < b
      · rw [if_pos (by simpa using hb), if_pos (by simpa using hb)]
        rw [List.map_cons, ih u h']
      · rw [if_neg (by simpa using hb), if_neg (by simpa using hb)]
        exact ih u h'

/-- C1: `spatial_information` computes exactly the spec's formula — restrict
both arrays to the visited bins (`occupancy > 0`), form rate, mean rate and
occupancy probability, and sum `prob × (rate/mean_rate) × lg (rate/mean_rate)`
over the bins with `rate > 0`, the `rate = 0` bins contributing exactly 0. -/
theorem spatial_information_matches_spec (lg : ℚ → ℚ) (tc occ : List ℚ)
    (h : tc.length = occ.length) :
    spatial_information lg tc occ = spatial_information_spec lg tc occ := by
  simp only [spatial_information, spatial_information_spec]
  rw [← filter_snd_zip tc occ h]
  set F := (tc.zip occ).filter (fun p : ℚ × ℚ => decide (0 < p.2)) with hF
  rw [List.zipWith_map (fun a b => a / b) Prod.fst Prod.snd F F]
  rw [List.zipWith_same]
  rw [List.map_map]
  rw [List.zip_map']
  rw [List.filter_map]
  rw [List.map_map]
  rw [sum_map_filter_eq]
  apply congrArg List.sum
  apply List.map_congr_left
  intro p _
  simp only [Function.comp_apply, decide_eq_true_eq]

/-- Witness for `spatial_information_matches_spec` at a concrete input. -/
theorem spatial_information_matches_spec_witness :
    spatial_information (fun q => q) [2, 0, 3] [1, 1, 0]
      = spatial_information_spec (fun q => q) [2, 0, 3] [1, 1, 0] :=
  spatial_information_matches_spec (fun q => q) [2, 0, 3] [1, 1, 0] (by decide)

theorem wrap2pi_bounds (θ : ℝ) : 0 ≤ wrap2pi θ ∧ wrap2pi θ < 2 * Real.pi := by
  have h2pi : (0 : ℝ) < 2 * Real.pi := by positivity
  have hfract : wrap2pi θ = 2 * Real.pi * Int.fract (θ / (2 * Real.pi)) := by
    unfold wrap2pi
    rw [Int.fract, mul_sub, mul_comm (2 * Real.pi) (θ / (2 * Real.pi)),
      div_mul_cancel₀ θ (ne_of_gt h2pi)]
  constructor
  · rw [hfract]
    exact mul_nonneg (le_of_lt h2pi) (Int.fract_nonneg _)
  · rw [hfract]
    calc 2 * Real.pi * Int.fract (θ / (2 * Real.pi))
        < 2 * Real.pi * 1 := mul_lt_mul_of_pos_left (Int.fract_lt_one _) h2pi
      _ = 2 * Real.pi := mul_one _

/-- C7: after the circular normalizer every stored y-coordinate is `0` (the
stored list is all zeros), every stored x-coordinate is the polar angle of
the recentered position rotated by `+π/2` and wrapped by `wrap2pi`, and the
wrap always lands in the interval `[0, 2π)`. -/
theorem normalize_circular_spec (xs ys : List ℝ) :
    (normalize_circular xs ys).2 = List.replicate ((xs.zip ys).length) 0 ∧
    (normalize_circular xs ys).1
      = (xs.zip ys).map (fun p => wrap2pi (cart2pol_angle
          (p.1 - extremaCenter xs) (p.2 - extremaCenter ys) + Real.pi / 2)) ∧
    (∀ θ : ℝ, 0 ≤ wrap2pi θ ∧ wrap2pi θ < 2 * Real.pi) := by
  refine ⟨?_, rfl, wrap2pi_bounds⟩
  simp [normalize_circular]

theorem velocity_of_length (t x y : List ℝ) (hx : x.length = t.length)
    (hy : y.length = t.length) :
    (velocity_of t x y).length = t.length := by
  unfold velocity_of consecutive_dist diff_prepend
  simp only [List.length_zipWith, List.length_cons, List.length_map, List.length_zip,
    List.length_tail, hx, hy]
  omega

/-- C8: the velocity filter divides the consecutive Euclidean distance (the
first sample's distance defined as `0`) by the elapsed time in seconds for
that sample, and flags `running[i] = velocity[i] > velocity_threshold`, the
threshold defaulting to 10 cm/s. -/
theorem velocity_running_spec (t x y : List ℝ) (thr : ℝ) (i : ℕ)
    (hx : x.length = t.length) (hy : y.length = t.length) (hi : i < t.length) :
    (velocity_of t x y).getD i 0 = velocity_spec t x y i ∧
    (running_of t x y thr).getD i False = (thr < (velocity_of t x y).getD i 0) ∧
    default_velocity_threshold = 10 := by
  have ht : 0 < t.length := lt_of_le_of_lt (Nat.zero_le i) hi
  have hlv : (velocity_of t x y).length = t.length := velocity_of_length t x y hx hy
  have hiv : i < (velocity_of t x y).length := by rw [hlv]; exact hi
  refine ⟨?_, ?_, rfl⟩
  · rw [List.getD_eq_getElem _ _ hiv]
    rcases i with _ | j
    · unfold velocity_of consecutive_dist diff_prepend velocity_spec
      simp only [List.getElem_zipWith, List.getElem_cons_zero, List.getElem_map]
      simp [zero_div]
    · have htj : j < t.length := by omega
      have hxj1 : j + 1 < x.length := by omega
      have hxj : j < x.length := by omega
      have hyj1 : j + 1 < y.length := by omega
      have hyj : j < y.length := by omega
      unfold velocity_of consecutive_dist diff_prepend velocity_spec
      simp only [List.getElem_zipWith, List.getElem_cons_succ, List.getElem_map,
        List.getElem_zip, List.getElem_tail, List.getElem_cons_zero]
      rw [if_neg (Nat.succ_ne_zero j), if_neg (Nat.succ_ne_zero j)]
      rw [Nat.succ_sub_one]
      rw [List.getD_eq_getElem t 0 hi, List.getD_eq_getElem t 0 htj,
        List.getD_eq_getElem x 0 hxj1, List.getD_eq_getElem x 0 hxj,
        List.getD_eq_getElem y 0 hyj1, List.getD_eq_getElem y 0 hyj]
      rw [sub_div]
  · have hir : i < (running_of t x y thr).length := by
      unfold running_of
      rw [List.length_map, hlv]
      exact hi
    rw [List.getD_eq_getElem _ _ hir, List.getD_eq_getElem _ _ hiv]
    unfold running_of
    rw [List.getElem_map]

/-- Witness for `velocity_running_spec` at a concrete input. -/
theorem velocity_running_spec_witness :
    (velocity_of [1000, 2000] [0, 3] [0, 4]).getD 1 0
      = velocity_spec [1000, 2000] [0, 3] [0, 4] 1 ∧
    (running_of [1000, 2000] [0, 3] [0, 4] 10).getD 1 False
      = (10 < (velocity_of [1000, 2000] [0, 3] [0, 4]).getD 1 0) ∧
    default_velocity_threshold = 10 :=
  velocity_running_spec [1000, 2000] [0, 3] [0, 4] 10 1 (by decide) (by decide) (by decide)

end PlaceFieldsPy

